import Mathlib

/-!
Verification of the DirCraft ASCII-tree parser (`src/dircraft.js`).

The embedding translates the four core functions of the source —
`extractNameAndComment`, `calculateIndentationLevel`, `parseTreeStructure`
and `separateDirectoriesAndFiles` — into executable Lean definitions over
`String` / `List Char`, mirroring the JavaScript semantics:

* `line.split("#")` and the regex strips are modelled on `List Char` with
  `takeWhile` / `dropWhile`;
* `String.prototype.trim()` and the `\s` character class are modelled by
  the predicate `isJsWhitespace` (ECMAScript WhiteSpace ∪ LineTerminator);
* the mutable `parentStack` / `paths` / `comments` of the parse loop become
  a fold over an explicit `ParseState`;
* the JavaScript object used for `comments` becomes an insertion-ordered
  association list with overwrite-in-place (`setKey`);
* `Set` becomes an insertion-ordered duplicate-free list (`setAdd`);
* Node's `path.dirname` (posix) is modelled by `posixDirname`, and the
  `while (currentDir && currentDir !== ".")` loop by the fuelled
  `addAncestors` (the fuel is sufficient whenever the source loop
  terminates; its non-termination on absolute paths is proved separately);
* `Array.prototype.sort` with comparator `aDepth - bDepth` (stable,
  ascending) is modelled by the stable `List.mergeSort` on the key
  `slashCount`.
-/

set_option maxRecDepth 100000

namespace DirCraft

/-- ECMAScript whitespace (WhiteSpace ∪ LineTerminator): the characters
removed by `String.prototype.trim()` and matched by `\s` in a regex. -/
def isJsWhitespace (c : Char) : Bool :=
  c = ' ' || c = '\t' || c = '\n' || c = '\r' || c = '\x0b' || c = '\x0c' ||
  c = '\u00A0' || c = '\u1680' || ('\u2000' ≤ c && c ≤ '\u200A') ||
  c = '\u2028' || c = '\u2029' || c = '\u202F' || c = '\u205F' ||
  c = '\u3000' || c = '\uFEFF'

/-- `s.trim()` on the character list: drop leading and trailing whitespace. -/
def jsTrim (cs : List Char) : List Char :=
  ((cs.dropWhile isJsWhitespace).reverse.dropWhile isJsWhitespace).reverse

/-- `content.split("\n")` on the character list. -/
def splitNewlines : List Char → List (List Char)
  | [] => [[]]
  | c :: tl =>
    match splitNewlines tl with
    | [] => [[]]
    | h :: t => if c = '\n' then [] :: h :: t else (c :: h) :: t

/-- A character of the class `[\s│]` (the leading run of the strip regex). -/
def isGlyphOrWs (c : Char) : Bool :=
  isJsWhitespace c || c = '│'

/-- After the leading `[\s│]*` run: recognize `[├└]──\s*` and return what
follows it, or `none` when the branch glyph is not there (regex mismatch). -/
def afterGlyph : List Char → Option (List Char)
  | b :: '─' :: '─' :: tail =>
    if b = '├' || b = '└' then some (tail.dropWhile isJsWhitespace) else none
  | _ => none

/-- `rawName.replace(/^[\s│]*[├└]──\s*/, "")`: the regex matches exactly
when the maximal leading `[\s│]` run is followed by `├──` or `└──`; on a
mismatch `replace` returns the string unchanged. -/
def stripTreeGlyphs (cs : List Char) : List Char :=
  match afterGlyph (cs.dropWhile isGlyphOrWs) with
  | some r => r
  | none => cs

/-- Result of `extractNameAndComment`. -/
structure NameComment where
  name : String
  comment : String
deriving DecidableEq

/-- `extractNameAndComment(line)` from `src/dircraft.js`:
`parts = line.split("#")`; `rawName = parts[0].trim()`;
`comment = parts.length > 1 ? parts[1].trim() : ""` (note: `parts[1]` is
the segment between the first and the second `#`);
`cleanName = rawName.replace(/^[\s│]*[├└]──\s*/, "").trim()`. -/
def extractNameAndComment (line : String) : NameComment :=
  let cs := line.data
  let part0 := cs.takeWhile (fun c => c != '#')
  let part1 := ((cs.dropWhile (fun c => c != '#')).drop 1).takeWhile (fun c => c != '#')
  let rawName := jsTrim part0
  let comment := if cs.any (fun c => c == '#') then jsTrim part1 else []
  let cleanName := jsTrim (stripTreeGlyphs rawName)
  { name := String.mk cleanName, comment := String.mk comment }

/-- `calculateIndentationLevel(line)`: `line.match(/│/g)` collects every
`│` occurrence in the whole line; `matches ? matches.length : 0`. -/
def calculateIndentationLevel (line : String) : Nat :=
  let ms := line.data.filter (fun c => c == '│')
  if ms.isEmpty then 0 else ms.length

/-- `s.endsWith("/")`. -/
def endsSlash (s : String) : Bool :=
  s.data.getLast? = some '/'

/-- `s.startsWith("/")` — whether a path is posix-absolute. Used to state
on which path lists the parent-chain loop of the source terminates. -/
def startsSlash (s : String) : Bool :=
  s.data.head? = some '/'

/-- Result of `parseTreeStructure`: the ordered path list and the comment
map (a JavaScript object, modelled as an insertion-ordered association
list with unique keys). -/
structure ParseResult where
  paths : List String
  comments : List (String × String)
deriving DecidableEq

/-- `obj[k] = v` on a JavaScript object: overwrite in place when the key
exists, else append. -/
def setKey : List (String × String) → String → String → List (String × String)
  | [], k, v => [(k, v)]
  | (k0, v0) :: tl, k, v =>
    if k0 = k then (k0, v) :: tl else (k0, v0) :: setKey tl k v

/-- The mutable state of the parse loop: the `parentStack` (head of the
list is the top of the stack), the accumulated `paths` and `comments`. -/
structure ParseState where
  stack : List String
  paths : List String
  comments : List (String × String)
deriving DecidableEq

/-- `while (parentStack.length > n) parentStack.pop();` — pop from the top
(the head) while the length exceeds `n`. -/
def popToLen (n : Nat) : List String → List String
  | [] => []
  | s :: tl => if (s :: tl).length > n then popToLen n tl else s :: tl

/-- One iteration of the `for` loop of `parseTreeStructure` (lines 90-124
of `src/dircraft.js`): skip blank lines and empty names; otherwise pop the
stack to `level + 1`, build `fullPath = parentPath + name`, append it to
`paths`, push it when the name ends in `/`, and record a non-empty
comment. -/
def processLine (st : ParseState) (line : String) : ParseState :=
  if jsTrim line.data = [] then st
  else
    let level := calculateIndentationLevel line
    let nc := extractNameAndComment line
    if nc.name = "" then st
    else
      let stack := popToLen (level + 1) st.stack
      let parentPath := stack.headD ""
      let fullPath := parentPath ++ nc.name
      let stack2 := if endsSlash nc.name then fullPath :: stack else stack
      let comments2 :=
        if nc.comment = "" then st.comments
        else setKey st.comments fullPath nc.comment
      { stack := stack2, paths := st.paths ++ [fullPath], comments := comments2 }

/-- `parseTreeStructure(content)` from `src/dircraft.js`: split on `"\n"`,
drop blank lines, seed `paths` / `comments` / `parentStack` from the first
line's decomposition, then fold the loop body over the remaining lines. -/
def parseTreeStructure (content : String) : ParseResult :=
  let lines := (splitNewlines content.data).filter (fun l => !(jsTrim l).isEmpty)
  match lines with
  | [] => { paths := [], comments := [] }
  | l0 :: rest =>
    let rc := extractNameAndComment (String.mk l0)
    let rootPaths := if rc.name = "" then [] else [rc.name]
    let rootComments :=
      if rc.name = "" then []
      else if rc.comment = "" then [] else [(rc.name, rc.comment)]
    let st0 : ParseState :=
      { stack := [rc.name], paths := rootPaths, comments := rootComments }
    let stF := (rest.map String.mk).foldl processLine st0
    { paths := stF.paths, comments := stF.comments }

/-- `(s.match(/\//g) || []).length`: the number of `/` characters. -/
def slashCount (s : String) : Nat :=
  (s.data.filter (fun c => c == '/')).length

/-- `Set.prototype.add`: append unless already present (insertion order). -/
def setAdd (l : List String) (x : String) : List String :=
  if x ∈ l then l else l ++ [x]

/-- The scan of Node's posix `path.dirname`: walk indices from
`cs.length - 1` down to `1`, skipping the trailing run of `/`, and return
the index of the `/` that ends the parent part (`end` in Node's source),
or `none` when no such index ≥ 1 exists. -/
def findEndAux (cs : List Char) : Nat → Bool → Option Nat
  | 0, _ => none
  | i + 1, matchedSlash =>
    if cs.getD (i + 1) ' ' = '/' then
      if matchedSlash then findEndAux cs i true
      else some (i + 1)
    else findEndAux cs i false

/-- Node's posix `path.dirname`. -/
def posixDirname (s : String) : String :=
  match s.data with
  | [] => "."
  | c0 :: rest =>
    let cs := c0 :: rest
    let hasRoot := c0 = '/'
    match findEndAux cs (cs.length - 1) true with
    | none => if hasRoot then "/" else "."
    | some e => if hasRoot && e = 1 then "//" else String.mk (cs.take e)

/-- The guard of the parent-directory loop:
`currentDir && currentDir !== "."` (a string is truthy iff non-empty). -/
def ancestorActive (d : String) : Bool :=
  !(d = "") && !(d = ".")

/-- The successive values of `currentDir` in the parent-directory loop of
`separateDirectoriesAndFiles`, starting from a file path `p`:
`currentDir = path.dirname(p)` and then `currentDir = path.dirname(currentDir)`
at the end of each iteration. -/
def dirnameChain (p : String) : Nat → String
  | 0 => posixDirname p
  | n + 1 => posixDirname (dirnameChain p n)

/-- The parent-directory loop of `separateDirectoriesAndFiles` (lines
148-152): while the guard holds, add `currentDir + "/"` to the directory
set and step to `path.dirname(currentDir)`. Fuelled; the fuel used by
`separateDirectoriesAndFiles` is sufficient whenever the source loop
terminates. -/
def addAncestors : Nat → String → List String → List String
  | 0, _, acc => acc
  | fuel + 1, d, acc =>
    if ancestorActive d then addAncestors fuel (posixDirname d) (setAdd acc (d ++ "/"))
    else acc

/-- The seven-line example tree of the specification (§8). -/
def exampleTree : String :=
  "project/\n├── src/\n│   ├── components/\n│   │   ├── Button.js # Button component\n│   │   └── Input.js\n│   └── index.js\n└── package.json # Project dependencies"

/-- The comparison `(a, b) => aDepth - bDepth` of the directory sort, as
the ordering relation it induces. -/
def depthLE (a b : String) : Bool :=
  decide (slashCount a ≤ slashCount b)

/-- One iteration of the classification loop of
`separateDirectoriesAndFiles`: a path ending in `/` joins the directory
set; any other path is appended to the file list and its parent chain is
added to the directory set. -/
def classifyStep (acc : List String × List String) (p : String) :
    List String × List String :=
  if endsSlash p then (setAdd acc.1 p, acc.2)
  else (addAncestors (p.length + 1) (posixDirname p) acc.1, acc.2 ++ [p])

/-- `separateDirectoriesAndFiles(paths)` from `src/dircraft.js`: classify
every path, then sort the directory set ascending by `/`-count with a
stable sort (JavaScript's `Array.prototype.sort` is stable). -/
def separateDirectoriesAndFiles (paths : List String) :
    List String × List String :=
  let res := paths.foldl classifyStep ([], [])
  (res.1.mergeSort depthLE, res.2)

/-! ### Basic helper lemmas -/

theorem mk_data (l : List Char) : (String.mk l).data = l := rfl

theorem jsTrim_nil : jsTrim [] = [] := rfl

/-- C1: on the seven-line example tree, `parseTreeStructure` yields exactly
the seven paths `project/`, `project/src/`, `project/src/components/`,
`project/src/components/Button.js`, `project/src/components/Input.js`,
`project/src/index.js`, `project/package.json` in that order, and the
comment map holds `Button component` under
`project/src/components/Button.js` and `Project dependencies` under
`project/package.json`. -/
theorem parseTreeStructure_example :
    (parseTreeStructure exampleTree).paths =
      ["project/", "project/src/", "project/src/components/",
       "project/src/components/Button.js", "project/src/components/Input.js",
       "project/src/index.js", "project/package.json"] ∧
    (parseTreeStructure exampleTree).comments.lookup
      "project/src/components/Button.js" = some "Button component" ∧
    (parseTreeStructure exampleTree).comments.lookup
      "project/package.json" = some "Project dependencies" := by
  refine ⟨by decide, by decide, by decide⟩

/-- C8: `calculateIndentationLevel` is the count of `│` characters anywhere
in the line (`line.match(/│/g)` tallies every occurrence), it is `0` when
the line has no `│`, and on `"│   │   ├── x"` it is `2`. -/
theorem calculateIndentationLevel_eq_count :
    (∀ line : String, calculateIndentationLevel line = line.data.count '│') ∧
    calculateIndentationLevel "│   │   ├── x" = 2 ∧
    (∀ line : String, '│' ∉ line.data → calculateIndentationLevel line = 0) := by
  have key : ∀ line : String,
      calculateIndentationLevel line = line.data.count '│' := by
    intro line
    rw [List.count_eq_countP, List.countP_eq_length_filter]
    show (if (line.data.filter (fun c => c == '│')).isEmpty then 0
      else (line.data.filter (fun c => c == '│')).length) = _
    by_cases h : (line.data.filter (fun c => c == '│')).isEmpty
    · rw [List.isEmpty_iff] at h
      simp [h]
    · simp [h]
  refine ⟨key, by decide, fun line h => ?_⟩
  rw [key line]
  exact List.count_eq_zero.mpr h

/-- C8 witness: a line with no `│` has indentation level `0`. -/
theorem calculateIndentationLevel_eq_count_witness :
    calculateIndentationLevel "x" = 0 :=
  calculateIndentationLevel_eq_count.2.2 "x" (by decide)

/-- C2: the parent-chain loop of `separateDirectoriesAndFiles` does not
terminate on the file path `"/a"`: the chain of `currentDir` values is
constantly `"/"` (because Node's `path.dirname("/") = "/"`), and the loop
guard `currentDir && currentDir !== "."` holds at every iteration, so the
`while` loop never exits. -/
theorem separateDirectoriesAndFiles_loops_on_absolute :
    endsSlash "/a" = false ∧
    ∀ n : Nat, dirnameChain "/a" n = "/" ∧
      ancestorActive (dirnameChain "/a" n) = true := by
  refine ⟨by decide, fun n => ?_⟩
  have h : dirnameChain "/a" n = "/" := by
    induction n with
    | zero => decide
    | succ k ih =>
      show posixDirname (dirnameChain "/a" k) = "/"
      rw [ih]
      decide
  exact ⟨h, by rw [h]; decide⟩

/-- C3 counterexample: the line `"│"` consists only of tree glyphs, yet its
decomposed name is `"│"`, not empty — the strip regex `[\s│]*[├└]──\s*`
requires the branch glyph, so a bare `│` run is not removed. -/
theorem extractNameAndComment_bar_nonempty :
    (extractNameAndComment "│").name ≠ "" := by
  decide

/-- C5 counterexample: on `"a#b#c"` the comment is `parts[1] = "b"` (the
segment between the first and second `#`), not the whole text `"b#c"`
after the first `#` as the claim states. -/
theorem extractNameAndComment_two_hashes :
    (extractNameAndComment "a#b#c").comment ≠ "b#c" := by
  decide

/-- C4 counterexample: the input `"├──"` is not blank (its single line is
not whitespace-only), yet `parseTreeStructure` yields zero paths — the
line decomposes to an empty name, so no root path is emitted. -/
theorem parseTreeStructure_glyph_only_empty :
    parseTreeStructure "├──" = { paths := [], comments := [] } ∧
    jsTrim "├──".data ≠ [] := by
  refine ⟨by decide, by decide⟩

/-! ### Helper lemmas for the line decomposer -/

theorem not_hash_of_glyphOrWs {c : Char} (h : isGlyphOrWs c = true) :
    (c != '#') = true := by
  rcases eq_or_ne c '#' with rfl | hne
  · exact absurd h (by decide)
  · simpa using hne

theorem not_hash_of_ws {c : Char} (h : isJsWhitespace c = true) :
    (c != '#') = true :=
  not_hash_of_glyphOrWs (by simp [isGlyphOrWs, h])

theorem no_hash_all {l : List Char} (h : '#' ∉ l) :
    ∀ c ∈ l, (c != '#') = true := by
  intro c hc
  simp only [bne_iff_ne, ne_eq]
  intro heq
  exact h (heq ▸ hc)

theorem dropWhile_append_cons {α : Type} (p : α → Bool) (xs rest : List α)
    (b : α) (hb : p b = false) :
    (xs ++ b :: rest).dropWhile p = xs.dropWhile p ++ b :: rest := by
  rw [List.dropWhile_append]
  split
  next hemp =>
    rw [List.isEmpty_iff] at hemp
    rw [hemp, List.nil_append, List.dropWhile_cons, if_neg (by simp [hb])]
  next => rfl

theorem afterGlyph_cons (b : Char) (tail : List Char) :
    afterGlyph (b :: '─' :: '─' :: tail)
      = if b = '├' || b = '└' then some (tail.dropWhile isJsWhitespace)
        else none := rfl

theorem takeWhile_no_hash (a rest : List Char)
    (ha : ∀ c ∈ a, (c != '#') = true) :
    (a ++ '#' :: rest).takeWhile (fun c => c != '#') = a := by
  rw [List.takeWhile_append_of_pos ha, List.takeWhile_cons, if_neg (by decide)]
  simp

theorem dropWhile_no_hash (a rest : List Char)
    (ha : ∀ c ∈ a, (c != '#') = true) :
    (a ++ '#' :: rest).dropWhile (fun c => c != '#') = '#' :: rest := by
  rw [List.dropWhile_append_of_pos ha, List.dropWhile_cons, if_neg (by decide)]

/-- C3 (amended): a line made of whitespace and `│` characters followed by
one branch glyph (`├──` or `└──`) and trailing whitespace decomposes to an
empty name. The branch glyph is required: the strip regex
`^[\s│]*[├└]──\s*` only removes the leading run together with a branch
glyph, so a line of only `│` and whitespace keeps its `│` characters (see
the counterexample). -/
theorem glyph_line_empty_name (pre post : List Char) (b : Char)
    (hpre : ∀ c ∈ pre, isGlyphOrWs c = true)
    (hb : b = '├' ∨ b = '└')
    (hpost : ∀ c ∈ post, isJsWhitespace c = true) :
    (extractNameAndComment (String.mk (pre ++ b :: '─' :: '─' :: post))).name
      = "" := by
  have hbws : isJsWhitespace b = false := by rcases hb with rfl | rfl <;> decide
  have hbg : isGlyphOrWs b = false := by rcases hb with rfl | rfl <;> decide
  have hbhash : (b != '#') = true := by rcases hb with rfl | rfl <;> decide
  have hbB : (b = '├' || b = '└') = true := by
    rcases hb with rfl | rfl <;> simp
  have hpre1 : ∀ c ∈ pre.dropWhile isJsWhitespace, isGlyphOrWs c = true :=
    fun c hc => hpre c ((List.dropWhile_sublist _).subset hc)
  have hall : ∀ c ∈ pre ++ b :: '─' :: '─' :: post, (c != '#') = true := by
    intro c hc
    rcases List.mem_append.mp hc with h1 | h2
    · exact not_hash_of_glyphOrWs (hpre c h1)
    · rcases List.mem_cons.mp h2 with rfl | h2
      · exact hbhash
      · rcases List.mem_cons.mp h2 with rfl | h2
        · decide
        · rcases List.mem_cons.mp h2 with rfl | h2
          · decide
          · exact not_hash_of_ws (hpost c h2)
  have step1 : jsTrim (pre ++ b :: '─' :: '─' :: post)
      = pre.dropWhile isJsWhitespace ++ [b, '─', '─'] := by
    unfold jsTrim
    rw [dropWhile_append_cons _ _ _ _ hbws, List.reverse_append]
    rw [show (b :: '─' :: '─' :: post).reverse
        = post.reverse ++ ['─', '─', b] from by simp]
    rw [List.append_assoc]
    rw [List.dropWhile_append_of_pos
      (fun c hc => hpost c (List.mem_reverse.mp hc))]
    simp only [List.cons_append, List.nil_append]
    rw [List.dropWhile_cons, if_neg (by decide)]
    simp
  have step2 : stripTreeGlyphs (pre.dropWhile isJsWhitespace ++ [b, '─', '─'])
      = [] := by
    unfold stripTreeGlyphs
    rw [List.dropWhile_append_of_pos hpre1]
    rw [show ([b, '─', '─'] : List Char).dropWhile isGlyphOrWs = [b, '─', '─']
      from by rw [List.dropWhile_cons, if_neg (by simp [hbg])]]
    rw [afterGlyph_cons, if_pos hbB]
    rfl
  simp only [extractNameAndComment, mk_data]
  rw [List.takeWhile_eq_self_iff.mpr hall, step1, step2]
  rfl

/-- C3 amended witness: the line `│ ├── ` (a `│` run, a branch glyph and
whitespace) decomposes to an empty name. -/
theorem glyph_line_empty_name_witness :
    (extractNameAndComment
      (String.mk ['│', ' ', '├', '─', '─', ' '])).name = "" :=
  glyph_line_empty_name ['│', ' '] [' '] '├' (by decide) (Or.inl rfl)
    (by decide)

/-- C5 (amended): `extractNameAndComment` splits on `#`: the name comes
from the text before the first `#`; a line with no `#` has an empty
comment; and the comment is the text between the first and the second `#`
(all of the remaining text when there is no second `#`), trimmed — not
everything after the first `#`. -/
theorem extractNameAndComment_split (a : String) (ha : '#' ∉ a.data) :
    (extractNameAndComment a).comment = "" ∧
    (∀ r : String,
      (extractNameAndComment (a ++ "#" ++ r)).name
        = (extractNameAndComment a).name) ∧
    (∀ r : String, '#' ∉ r.data →
      (extractNameAndComment (a ++ "#" ++ r)).comment
        = String.mk (jsTrim r.data)) ∧
    (∀ b c : String, '#' ∉ b.data →
      (extractNameAndComment (a ++ "#" ++ b ++ "#" ++ c)).comment
        = String.mk (jsTrim b.data)) := by
  have haAll : ∀ ch ∈ a.data, (ch != '#') = true := no_hash_all ha
  have hdata : ∀ r : String, (a ++ "#" ++ r).data = a.data ++ '#' :: r.data := by
    intro r
    simp [String.data_append]
  have hanyF : a.data.any (fun c => c == '#') = false := by
    rw [List.any_eq_false]
    intro c hc
    simpa using no_hash_all ha c hc
  have hanyT : ∀ rest : List Char,
      (a.data ++ '#' :: rest).any (fun c => c == '#') = true := by
    intro rest
    simp
  refine ⟨?c1, fun r => ?c2, fun r hr => ?c3, fun b c hb => ?c4⟩
  · simp only [extractNameAndComment, hanyF]
    rfl
  · simp only [extractNameAndComment, hdata r]
    rw [takeWhile_no_hash _ _ haAll, List.takeWhile_eq_self_iff.mpr haAll]
  · simp only [extractNameAndComment, hdata r, hanyT]
    rw [dropWhile_no_hash _ _ haAll]
    simp only [List.drop_one, List.tail_cons]
    rw [List.takeWhile_eq_self_iff.mpr (no_hash_all hr)]
    simp
  · have hdata2 : (a ++ "#" ++ b ++ "#" ++ c).data
        = a.data ++ '#' :: (b.data ++ '#' :: c.data) := by
      simp [String.data_append]
    simp only [extractNameAndComment, hdata2, hanyT]
    rw [dropWhile_no_hash _ _ haAll]
    simp only [List.drop_one, List.tail_cons]
    rw [takeWhile_no_hash _ _ (no_hash_all hb)]
    simp

/-- C5 amended witness: on `"x" ++ "#" ++ "y"` the comment is the trimmed
text after the (only) `#`. -/
theorem extractNameAndComment_split_witness :
    (extractNameAndComment ("x" ++ "#" ++ "y")).comment
      = String.mk (jsTrim "y".data) :=
  (extractNameAndComment_split "x" (by decide)).2.2.1 "y" (by decide)

/-! ### Helper lemmas for the path assembler -/

theorem processLine_paths (st : ParseState) (line : String)
    (h1 : jsTrim line.data ≠ []) (h2 : (extractNameAndComment line).name ≠ "") :
    (processLine st line).paths
      = st.paths
        ++ [(popToLen (calculateIndentationLevel line + 1) st.stack).headD ""
              ++ (extractNameAndComment line).name] := by
  simp [processLine, h1, h2]

theorem processLine_paths_mono (st : ParseState) (line : String) :
    ∃ t, (processLine st line).paths = st.paths ++ t := by
  by_cases h1 : jsTrim line.data = []
  · exact ⟨[], by simp [processLine, h1]⟩
  · by_cases h2 : (extractNameAndComment line).name = ""
    · exact ⟨[], by simp [processLine, h1, h2]⟩
    · exact ⟨_, processLine_paths st line h1 h2⟩

theorem foldl_paths_mono (ls : List String) (st : ParseState) :
    ∃ t, (ls.foldl processLine st).paths = st.paths ++ t := by
  induction ls generalizing st with
  | nil => exact ⟨[], by simp⟩
  | cons l ls ih =>
    obtain ⟨t1, h1⟩ := processLine_paths_mono st l
    obtain ⟨t2, h2⟩ := ih (processLine st l)
    exact ⟨t1 ++ t2, by simp [h2, h1]⟩

theorem foldl_paths_ne_nil_of_ne_nil (ls : List String) (st : ParseState)
    (h : st.paths ≠ []) : (ls.foldl processLine st).paths ≠ [] := by
  obtain ⟨t, ht⟩ := foldl_paths_mono ls st
  rw [ht]
  simp only [ne_eq, List.append_eq_nil]
  exact fun hc => h hc.1

theorem foldl_paths_ne_nil_of_mem (ls : List String) (st : ParseState)
    (l : String) (hl : l ∈ ls) (h1 : jsTrim l.data ≠ [])
    (h2 : (extractNameAndComment l).name ≠ "") :
    (ls.foldl processLine st).paths ≠ [] := by
  obtain ⟨s, t, rfl⟩ := List.append_of_mem hl
  rw [List.foldl_append, List.foldl_cons]
  obtain ⟨t2, ht2⟩ := foldl_paths_mono t (processLine (s.foldl processLine st) l)
  rw [ht2, processLine_paths _ _ h1 h2]
  simp

theorem popToLen_ne_nil (n : Nat) (hn : 0 < n) :
    ∀ s : List String, s ≠ [] → popToLen n s ≠ [] := by
  intro s
  induction s with
  | nil => simp
  | cons a tl ih =>
    intro _
    simp only [popToLen]
    split
    next hgt =>
      apply ih
      intro hnil
      subst hnil
      simp at hgt
      omega
    next => simp

theorem popToLen_of_le (n : Nat) (s : List String) (h : s.length ≤ n) :
    popToLen n s = s := by
  cases s with
  | nil => rfl
  | cons a tl =>
    simp only [popToLen]
    rw [if_neg (by omega)]

theorem popToLen_getLast? (n : Nat) (hn : 0 < n) :
    ∀ s : List String, s ≠ [] → (popToLen n s).getLast? = s.getLast? := by
  intro s
  induction s with
  | nil => simp
  | cons a tl ih =>
    intro _
    simp only [popToLen]
    split
    next hgt =>
      have htl : tl ≠ [] := by
        intro hnil
        subst hnil
        simp at hgt
        omega
      rw [ih htl]
      cases tl with
      | nil => exact absurd rfl htl
      | cons b tl2 => simp
    next => rfl

theorem popToLen_one (s : List String) (r : String) (h : s.getLast? = some r) :
    popToLen 1 s = [r] := by
  induction s with
  | nil => simp at h
  | cons a tl ih =>
    simp only [popToLen]
    split
    next hgt =>
      apply ih
      cases tl with
      | nil => simp at hgt
      | cons b tl2 => simpa using h
    next hle =>
      have htl : tl = [] := by
        cases tl with
        | nil => rfl
        | cons b tl2 => simp at hle
      subst htl
      simp at h
      rw [h]

theorem processLine_stack_ne_nil (st : ParseState) (line : String)
    (h : st.stack ≠ []) : (processLine st line).stack ≠ [] := by
  by_cases h1 : jsTrim line.data = []
  · simpa [processLine, h1] using h
  · by_cases h2 : (extractNameAndComment line).name = ""
    · simpa [processLine, h1, h2] using h
    · have hs : popToLen (calculateIndentationLevel line + 1) st.stack ≠ [] :=
        popToLen_ne_nil _ (Nat.succ_pos _) st.stack h
      simp only [processLine, h1, h2, if_false, ite_false]
      split
      · simp
      · exact hs

theorem processLine_stack_getLast? (st : ParseState) (line : String)
    (h : st.stack ≠ []) :
    (processLine st line).stack.getLast? = st.stack.getLast? := by
  by_cases h1 : jsTrim line.data = []
  · simp [processLine, h1]
  · by_cases h2 : (extractNameAndComment line).name = ""
    · simp [processLine, h1, h2]
    · have hs : popToLen (calculateIndentationLevel line + 1) st.stack ≠ [] :=
        popToLen_ne_nil _ (Nat.succ_pos _) st.stack h
      have hlast : (popToLen (calculateIndentationLevel line + 1) st.stack).getLast?
          = st.stack.getLast? := popToLen_getLast? _ (Nat.succ_pos _) st.stack h
      simp only [processLine, h1, h2, if_false, ite_false]
      split
      · cases hp : popToLen (calculateIndentationLevel line + 1) st.stack with
        | nil => exact absurd hp hs
        | cons b tl2 =>
          rw [← hlast, hp]
          simp
      · exact hlast

theorem foldl_stack_ne_nil (ls : List String) (st : ParseState)
    (h : st.stack ≠ []) : (ls.foldl processLine st).stack ≠ [] := by
  induction ls generalizing st with
  | nil => exact h
  | cons l ls ih => exact ih _ (processLine_stack_ne_nil st l h)

theorem foldl_stack_getLast? (ls : List String) (st : ParseState)
    (h : st.stack ≠ []) :
    (ls.foldl processLine st).stack.getLast? = st.stack.getLast? := by
  induction ls generalizing st with
  | nil => rfl
  | cons l ls ih =>
    rw [List.foldl_cons, ih _ (processLine_stack_ne_nil st l h),
        processLine_stack_getLast? st l h]

/-- C4 (amended): `parseTreeStructure` is total and raises no error:
`parseTreeStructure ""` and any input whose lines are all
blank/whitespace-only yield `{ paths := [], comments := [] }`;
`parseTreeStructure "not a valid structure"` yields the single root path;
and any input with at least one (non-blank) line decomposing to a
non-empty name yields at least one path. (An input whose non-blank lines
all decompose to empty names — e.g. `"├──"` — yields zero paths, see the
counterexample.) -/
theorem parseTreeStructure_total :
    parseTreeStructure "" = { paths := [], comments := [] } ∧
    parseTreeStructure "not a valid structure"
      = { paths := ["not a valid structure"], comments := [] } ∧
    (∀ content : String,
      (∀ l ∈ splitNewlines content.data, jsTrim l = []) →
      parseTreeStructure content = { paths := [], comments := [] }) ∧
    (∀ content : String,
      (∃ l ∈ (splitNewlines content.data).filter (fun l => !(jsTrim l).isEmpty),
        (extractNameAndComment (String.mk l)).name ≠ "") →
      (parseTreeStructure content).paths ≠ []) := by
  refine ⟨by decide, by decide, fun content hall => ?blank, fun content hex => ?some⟩
  case blank =>
    have hnil : (splitNewlines content.data).filter (fun l => !(jsTrim l).isEmpty)
        = [] := by
      rw [List.filter_eq_nil_iff]
      intro l hl
      simp [hall l hl]
    simp [parseTreeStructure, hnil]
  case some =>
    obtain ⟨l, hl, hname⟩ := hex
    cases hfl : (splitNewlines content.data).filter (fun l => !(jsTrim l).isEmpty) with
    | nil =>
      rw [hfl] at hl
      simp at hl
    | cons l0 rest =>
      rw [hfl] at hl
      have hres : (parseTreeStructure content).paths
          = ((rest.map String.mk).foldl processLine
              { stack := [(extractNameAndComment (String.mk l0)).name],
                paths := if (extractNameAndComment (String.mk l0)).name = "" then []
                  else [(extractNameAndComment (String.mk l0)).name],
                comments :=
                  if (extractNameAndComment (String.mk l0)).name = "" then []
                  else if (extractNameAndComment (String.mk l0)).comment = "" then []
                  else [((extractNameAndComment (String.mk l0)).name,
                        (extractNameAndComment (String.mk l0)).comment)] }).paths := by
        simp only [parseTreeStructure, hfl]
      rw [hres]
      rcases List.mem_cons.mp hl with rfl | hmem
      · apply foldl_paths_ne_nil_of_ne_nil
        simp only [if_neg hname]
        simp
      · have hmemf : l ∈ (splitNewlines content.data).filter
            (fun l => !(jsTrim l).isEmpty) := by
          rw [hfl]
          exact List.mem_cons_of_mem _ hmem
        have hfilt : (!(jsTrim l).isEmpty) = true := (List.mem_filter.mp hmemf).2
        have h1 : jsTrim (String.mk l).data ≠ [] := by
          rw [mk_data]
          simpa [List.isEmpty_iff] using hfilt
        exact foldl_paths_ne_nil_of_mem _ _ (String.mk l)
          (List.mem_map_of_mem _ hmem) h1 hname

/-- C4 amended witness: the one-line input `"x"` yields a path. -/
theorem parseTreeStructure_total_witness :
    (parseTreeStructure "x").paths ≠ [] :=
  parseTreeStructure_total.2.2.2 "x" (by decide)

/-- C7: while assembling paths, the ancestor stack is popped only while
its length exceeds `level + 1` and never loses its root entry (a
non-empty stack stays non-empty through the pop and through the whole
fold); when the stack length is already ≤ `level + 1` the pop is a no-op,
so a line whose indentation exceeds the available ancestors is attached
as a child of the current stack top (no error is raised). -/
theorem parentStack_pop_invariants :
    (∀ (level : Nat) (s : List String), s ≠ [] → popToLen (level + 1) s ≠ []) ∧
    (∀ (level : Nat) (s : List String), s.length ≤ level + 1 →
      popToLen (level + 1) s = s) ∧
    (∀ (ls : List String) (st : ParseState), st.stack ≠ [] →
      (ls.foldl processLine st).stack ≠ []) ∧
    (∀ (st : ParseState) (line : String),
      st.stack.length ≤ calculateIndentationLevel line + 1 →
      jsTrim line.data ≠ [] →
      (extractNameAndComment line).name ≠ "" →
      (processLine st line).paths
        = st.paths ++ [st.stack.headD "" ++ (extractNameAndComment line).name]) := by
  refine ⟨fun level s h => popToLen_ne_nil _ (Nat.succ_pos _) s h,
          fun level s h => popToLen_of_le _ s h,
          foldl_stack_ne_nil,
          fun st line hlen h1 h2 => ?_⟩
  rw [processLine_paths st line h1 h2, popToLen_of_le _ _ hlen]

/-- C7 witness: a depth-0 line under a one-entry stack pops nothing and is
attached to the stack top. -/
theorem parentStack_pop_invariants_witness :
    (processLine { stack := ["r/"], paths := ["r/"], comments := [] } "a").paths
      = ["r/"] ++ [List.headD ["r/"] "" ++ (extractNameAndComment "a").name] :=
  parentStack_pop_invariants.2.2.2
    { stack := ["r/"], paths := ["r/"], comments := [] } "a"
    (by decide) (by decide) (by decide)

/-- C9: a first line whose name does not end in `/` still becomes the sole
initial ancestor-stack entry: the bottom of the stack survives the whole
fold, and every depth-0 line with non-empty name emits the root name
directly concatenated with its own name, with no separator inserted — in
particular `parseTreeStructure "a\nb"` yields paths `["a", "ab"]`. -/
theorem root_entry_concatenation :
    parseTreeStructure "a\nb" = { paths := ["a", "ab"], comments := [] } ∧
    (∀ (ls : List String) (st : ParseState), st.stack ≠ [] →
      (ls.foldl processLine st).stack.getLast? = st.stack.getLast?) ∧
    (∀ (st : ParseState) (line : String) (r : String),
      st.stack.getLast? = some r →
      calculateIndentationLevel line = 0 →
      jsTrim line.data ≠ [] →
      (extractNameAndComment line).name ≠ "" →
      (processLine st line).paths
        = st.paths ++ [r ++ (extractNameAndComment line).name]) := by
  refine ⟨by decide, foldl_stack_getLast?, fun st line r hr hlvl h1 h2 => ?_⟩
  rw [processLine_paths st line h1 h2, hlvl]
  simp only [Nat.zero_add]
  rw [popToLen_one st.stack r hr]
  rfl

/-- C9 witness: after root `"a"`, the depth-0 line `"b"` emits `"ab"`. -/
theorem root_entry_concatenation_witness :
    (processLine { stack := ["a"], paths := ["a"], comments := [] } "b").paths
      = ["a"] ++ ["a" ++ (extractNameAndComment "b").name] :=
  root_entry_concatenation.2.2
    { stack := ["a"], paths := ["a"], comments := [] } "b" "a"
    (by decide) (by decide) (by decide) (by decide)

/-! ### Helper lemmas for the comment map -/

theorem setKey_keys (k v : String) :
    ∀ (m : List (String × String)) (k' : String),
      k' ∈ (setKey m k v).map Prod.fst → k' ∈ m.map Prod.fst ∨ k' = k := by
  intro m
  induction m with
  | nil =>
    intro k' h
    simp [setKey] at h
    exact Or.inr h
  | cons p tl ih =>
    intro k' h
    obtain ⟨k0, v0⟩ := p
    by_cases hk : k0 = k
    · simp only [setKey, if_pos hk, List.map_cons, List.mem_cons] at h
      simp only [List.map_cons, List.mem_cons]
      exact Or.inl h
    · simp only [setKey, if_neg hk, List.map_cons, List.mem_cons] at h
      simp only [List.map_cons, List.mem_cons]
      rcases h with rfl | h
      · exact Or.inl (Or.inl rfl)
      · rcases ih k' h with h2 | h2
        · exact Or.inl (Or.inr h2)
        · exact Or.inr h2

theorem processLine_comments_sub (st : ParseState) (line : String)
    (h : ∀ k ∈ st.comments.map Prod.fst, k ∈ st.paths) :
    ∀ k ∈ (processLine st line).comments.map Prod.fst,
      k ∈ (processLine st line).paths := by
  by_cases h1 : jsTrim line.data = []
  · simpa [processLine, h1] using h
  · by_cases h2 : (extractNameAndComment line).name = ""
    · simpa [processLine, h1, h2] using h
    · intro k hk
      have hcpro : (processLine st line).comments
          = (if (extractNameAndComment line).comment = "" then st.comments
             else setKey st.comments
               ((popToLen (calculateIndentationLevel line + 1) st.stack).headD ""
                 ++ (extractNameAndComment line).name)
               (extractNameAndComment line).comment) := by
        simp [processLine, h1, h2]
      have hppro := processLine_paths st line h1 h2
      rw [hcpro] at hk
      rw [hppro]
      by_cases h3 : (extractNameAndComment line).comment = ""
      · rw [if_pos h3] at hk
        exact List.mem_append_left _ (h k hk)
      · rw [if_neg h3] at hk
        rcases setKey_keys _ _ st.comments k hk with hin | rfl
        · exact List.mem_append_left _ (h k hin)
        · exact List.mem_append_right _ (by simp)

theorem foldl_comments_sub (ls : List String) (st : ParseState)
    (h : ∀ k ∈ st.comments.map Prod.fst, k ∈ st.paths) :
    ∀ k ∈ (ls.foldl processLine st).comments.map Prod.fst,
      k ∈ (ls.foldl processLine st).paths := by
  induction ls generalizing st with
  | nil => exact h
  | cons l ls ih => exact ih _ (processLine_comments_sub st l h)

/-- C10: every key of the comment map returned by `parseTreeStructure` is
one of the returned paths: a comment is only ever recorded under a full
path (or the root name) that is also appended to `paths`. -/
theorem comments_keys_sub_paths :
    ∀ (content : String) (k : String),
      k ∈ (parseTreeStructure content).comments.map Prod.fst →
      k ∈ (parseTreeStructure content).paths := by
  intro content k
  cases hfl : (splitNewlines content.data).filter (fun l => !(jsTrim l).isEmpty) with
  | nil => simp [parseTreeStructure, hfl]
  | cons l0 rest =>
    intro hk
    simp only [parseTreeStructure, hfl] at hk ⊢
    refine foldl_comments_sub _ _ ?_ k hk
    intro k' hk'
    by_cases hn : (extractNameAndComment (String.mk l0)).name = ""
    · simp [hn] at hk'
    · by_cases hc : (extractNameAndComment (String.mk l0)).comment = ""
      · simp [hn, hc] at hk'
      · simp only [if_neg hn, if_neg hc] at hk' ⊢
        simpa using hk'

/-- C10 witness: on `"a # c"` the comment key `"a"` is an emitted path. -/
theorem comments_keys_sub_paths_witness :
    "a" ∈ (parseTreeStructure "a # c").paths :=
  comments_keys_sub_paths "a # c" "a" (by decide)

/-! ### Helper lemmas for the path classifier -/

theorem setAdd_mem_self (l : List String) (x : String) : x ∈ setAdd l x := by
  unfold setAdd
  split
  next h => exact h
  next => simp

theorem setAdd_mono {l : List String} {y : String} (h : y ∈ l) (x : String) :
    y ∈ setAdd l x := by
  unfold setAdd
  split
  · exact h
  · exact List.mem_append_left _ h

theorem addAncestors_mono (fuel : Nat) (d : String) {acc : List String}
    {y : String} (h : y ∈ acc) : y ∈ addAncestors fuel d acc := by
  induction fuel generalizing d acc with
  | zero => exact h
  | succ f ih =>
    simp only [addAncestors]
    split
    · exact ih _ (setAdd_mono h _)
    · exact h

theorem classifyStep_fst_mono {acc : List String × List String} {y : String}
    (h : y ∈ acc.1) (p : String) : y ∈ (classifyStep acc p).1 := by
  unfold classifyStep
  split
  · exact setAdd_mono h p
  · exact addAncestors_mono _ _ h

theorem foldl_classify_fst_mono (ps : List String)
    (acc : List String × List String) {y : String} (h : y ∈ acc.1) :
    y ∈ (ps.foldl classifyStep acc).1 := by
  induction ps generalizing acc with
  | nil => exact h
  | cons p ps ih => exact ih _ (classifyStep_fst_mono h p)

theorem mem_dirs_of_endsSlash (ps : List String)
    (acc : List String × List String) (p : String) (hp : p ∈ ps)
    (hs : endsSlash p = true) : p ∈ (ps.foldl classifyStep acc).1 := by
  obtain ⟨s, t, rfl⟩ := List.append_of_mem hp
  rw [List.foldl_append, List.foldl_cons]
  apply foldl_classify_fst_mono
  unfold classifyStep
  rw [if_pos hs]
  exact setAdd_mem_self _ p

theorem foldl_classify_snd (ps : List String) :
    ∀ acc : List String × List String,
      (ps.foldl classifyStep acc).2
        = acc.2 ++ ps.filter (fun p => !(endsSlash p)) := by
  induction ps with
  | nil => intro acc; simp
  | cons p ps ih =>
    intro acc
    rw [List.foldl_cons, ih]
    by_cases hs : endsSlash p = true
    · have h2 : (classifyStep acc p).2 = acc.2 := by simp [classifyStep, hs]
      rw [h2, List.filter_cons]
      simp [hs]
    · have hsf : endsSlash p = false := by
        revert hs
        cases endsSlash p <;> simp
      have h2 : (classifyStep acc p).2 = acc.2 ++ [p] := by
        simp [classifyStep, hsf]
      rw [h2, List.filter_cons]
      simp [hsf]

theorem depthLE_trans :
    ∀ a b c : String, depthLE a b → depthLE b c → depthLE a c := by
  intro a b c hab hbc
  simp only [depthLE, decide_eq_true_eq] at hab hbc ⊢
  exact Nat.le_trans hab hbc

theorem depthLE_total : ∀ a b : String, depthLE a b || depthLE b a := by
  intro a b
  simp only [depthLE, Bool.or_eq_true, decide_eq_true_eq]
  exact Nat.le_total _ _

theorem sorted_dirs (l : List String) :
    (l.mergeSort depthLE).Pairwise (fun a b => slashCount a ≤ slashCount b) := by
  have hs := @List.sorted_mergeSort String depthLE depthLE_trans depthLE_total l
  exact hs.imp (by intro a b hab; simpa [depthLE] using hab)

/-- C6 counterexample: the claim fails at the path list `["/a"]`: `"/a"`
is classified as a file, the parent-chain loop starts at
`currentDir = dirname("/a") = "/"`, the loop guard holds there, and
`dirname("/") = "/"` is a fixpoint of the step, so the `while` loop of
`separateDirectoriesAndFiles` never exits and no partition is produced on
this input. -/
theorem separateDirectoriesAndFiles_abs_diverges :
    endsSlash "/a" = false ∧ posixDirname "/a" = "/" ∧
    posixDirname "/" = "/" ∧ ancestorActive "/" = true := by
  decide

/-! ### The parent-chain loop terminates on relative paths -/

theorem findEndAux_le (cs : List Char) :
    ∀ (i : Nat) (m : Bool) (j : Nat), findEndAux cs i m = some j → j ≤ i := by
  intro i
  induction i with
  | zero =>
    intro m j h
    simp [findEndAux] at h
  | succ k ih =>
    intro m j h
    simp only [findEndAux] at h
    split at h
    · split at h
      · exact Nat.le_succ_of_le (ih true j h)
      · simp at h
        omega
    · exact Nat.le_succ_of_le (ih false j h)

theorem findEndAux_pos (cs : List Char) :
    ∀ (i : Nat) (m : Bool) (j : Nat), findEndAux cs i m = some j → 1 ≤ j := by
  intro i
  induction i with
  | zero =>
    intro m j h
    simp [findEndAux] at h
  | succ k ih =>
    intro m j h
    simp only [findEndAux] at h
    split at h
    · split at h
      · exact ih true j h
      · simp at h
        omega
    · exact ih false j h

theorem posixDirname_nil (s : String) (h : s.data = []) :
    posixDirname s = "." := by
  simp [posixDirname, h]

theorem mk_length (l : List Char) : (String.mk l).length = l.length := rfl

/-- On a non-empty relative path, Node's `dirname` yields `"."` or a
strictly shorter path that is again relative. -/
theorem posixDirname_shorter (s : String) (hne : s.data ≠ [])
    (hrel : startsSlash s = false) :
    posixDirname s = "." ∨
      ((posixDirname s).length < s.length ∧
        startsSlash (posixDirname s) = false) := by
  cases hd : s.data with
  | nil => exact absurd hd hne
  | cons c0 rest =>
    have hc0 : ¬ (c0 = '/') := by
      simpa [startsSlash, hd] using hrel
    cases hfe : findEndAux (c0 :: rest) rest.length true with
    | none =>
      left
      simp [posixDirname, hd, hfe, hc0]
    | some e =>
      right
      have he1 : 1 ≤ e := findEndAux_pos _ _ _ _ hfe
      have heLe : e ≤ rest.length := findEndAux_le _ _ _ _ hfe
      have hres : posixDirname s = String.mk ((c0 :: rest).take e) := by
        simp [posixDirname, hd, hfe, hc0]
      have hslen : s.length = rest.length + 1 := by
        show s.data.length = rest.length + 1
        rw [hd]
        rfl
      constructor
      · rw [hres, hslen, mk_length, List.length_take]
        simp only [List.length_cons]
        omega
      · rw [hres]
        cases e with
        | zero => omega
        | succ e2 =>
          simpa [startsSlash, List.take_succ_cons] using hc0

theorem dirnameChain_shift (p : String) :
    ∀ n, dirnameChain p (n + 1) = dirnameChain (posixDirname p) n := by
  intro n
  induction n with
  | zero => rfl
  | succ k ih =>
    show posixDirname (dirnameChain p (k + 1))
      = posixDirname (dirnameChain (posixDirname p) k)
    rw [ih]

/-- On a relative start the chain of `currentDir` values of the
parent-chain loop reaches an inactive value (the guard fails) within the
path's length. -/
theorem chain_terminates : ∀ (k : Nat) (d : String), d.length ≤ k →
    startsSlash d = false →
    ∃ n, n ≤ k ∧ ancestorActive (dirnameChain d n) = false := by
  intro k
  induction k with
  | zero =>
    intro d hlen hrel
    refine ⟨0, Nat.le_refl 0, ?_⟩
    have hlen0 : d.data.length = 0 := Nat.le_zero.mp hlen
    have hnil : d.data = [] := List.length_eq_zero.mp hlen0
    show ancestorActive (posixDirname d) = false
    rw [posixDirname_nil d hnil]
    decide
  | succ k ih =>
    intro d hlen hrel
    by_cases hnil : d.data = []
    · refine ⟨0, Nat.zero_le _, ?_⟩
      show ancestorActive (posixDirname d) = false
      rw [posixDirname_nil d hnil]
      decide
    · rcases posixDirname_shorter d hnil hrel with hdot | ⟨hlt, hrel2⟩
      · refine ⟨0, Nat.zero_le _, ?_⟩
        show ancestorActive (posixDirname d) = false
        rw [hdot]
        decide
      · obtain ⟨n, hn, hact⟩ := ih (posixDirname d) (by omega) hrel2
        refine ⟨n + 1, by omega, ?_⟩
        rw [dirnameChain_shift]
        exact hact

theorem addAncestors_inactive (f : Nat) (d : String) (acc : List String)
    (h : ancestorActive d = false) : addAncestors f d acc = acc := by
  cases f with
  | zero => rfl
  | succ f2 => simp [addAncestors, h]

/-- On a relative start, any fuel beyond the start's length computes the
same directory set: the fuelled model is independent of the bound exactly
because the source loop exits within that many iterations. -/
theorem addAncestors_fuel_stable : ∀ (k : Nat) (d : String), d.length ≤ k →
    startsSlash d = false →
    ∀ (f1 f2 : Nat), k < f1 → k < f2 → ∀ acc : List String,
      addAncestors f1 d acc = addAncestors f2 d acc := by
  intro k
  induction k with
  | zero =>
    intro d hlen hrel f1 f2 h1 h2 acc
    have hlen0 : d.data.length = 0 := Nat.le_zero.mp hlen
    have hnil : d = "" := String.ext (List.length_eq_zero.mp hlen0)
    subst hnil
    rw [addAncestors_inactive f1 _ acc (by decide),
        addAncestors_inactive f2 _ acc (by decide)]
  | succ k ih =>
    intro d hlen hrel f1 f2 h1 h2 acc
    by_cases hact : ancestorActive d = true
    · cases f1 with
      | zero => omega
      | succ m1 =>
        cases f2 with
        | zero => omega
        | succ m2 =>
          simp only [addAncestors, hact, if_true]
          by_cases hnil : d.data = []
          · have : d = "" := String.ext hnil
            subst this
            exact absurd hact (by decide)
          · rcases posixDirname_shorter d hnil hrel with hdot | ⟨hlt, hrel2⟩
            · rw [hdot, addAncestors_inactive m1 _ _ (by decide),
                  addAncestors_inactive m2 _ _ (by decide)]
            · exact ih (posixDirname d) (by omega) hrel2 m1 m2
                (by omega) (by omega) _
    · have hinact : ancestorActive d = false := by
        revert hact
        cases ancestorActive d <;> simp
      rw [addAncestors_inactive _ _ _ hinact, addAncestors_inactive _ _ _ hinact]

/-- While the loop guard holds up to step `n`, the `n`-th `currentDir`
value (with `/` appended) is added to the directory set — each iteration
performs `directories.add(currentDir + "/")`. -/
theorem addAncestors_adds : ∀ (n : Nat) (p : String) (fuel : Nat)
    (acc : List String), n < fuel →
    (∀ m, m ≤ n → ancestorActive (dirnameChain p m) = true) →
    dirnameChain p n ++ "/" ∈ addAncestors fuel (posixDirname p) acc := by
  intro n
  induction n with
  | zero =>
    intro p fuel acc hf hact
    cases fuel with
    | zero => omega
    | succ f =>
      have h0 : ancestorActive (posixDirname p) = true := hact 0 (Nat.le_refl 0)
      simp only [addAncestors]
      rw [if_pos h0]
      exact addAncestors_mono f (posixDirname (posixDirname p))
        (setAdd_mem_self _ _)
  | succ k ih =>
    intro p fuel acc hf hact
    cases fuel with
    | zero => omega
    | succ f =>
      have h0 : ancestorActive (posixDirname p) = true := hact 0 (Nat.zero_le _)
      simp only [addAncestors]
      rw [if_pos h0, dirnameChain_shift]
      exact ih (posixDirname p) f _ (by omega)
        (fun m hm => by rw [← dirnameChain_shift]; exact hact (m + 1) (by omega))

/-- C6 (amended): on every path list whose file elements are relative (no
element not ending in `/` begins with `/` — on a list with an absolute
file path the source loop diverges, see the counterexample and C2),
`separateDirectoriesAndFiles` terminates and partitions the list: the
file output is exactly the input paths not ending in `/`, in input order;
every input path ending in `/` is in the directory output; every implied
file ancestor — each `currentDir` level of the parent chain reached while
the loop guard holds, with `/` appended — is in the directory output; the
directory output is sorted ascending by the count of `/` occurrences; and
for each file the parent chain goes inactive within the file's length and
the computed directory set is independent of the loop bound (the fuelled
embedding computes the source loop's limit). -/
theorem separateDirectoriesAndFiles_relative_spec :
    ∀ paths : List String,
      (∀ p ∈ paths, endsSlash p = false → startsSlash p = false) →
      (separateDirectoriesAndFiles paths).2
        = paths.filter (fun p => !(endsSlash p)) ∧
      (∀ p ∈ paths, endsSlash p = true →
        p ∈ (separateDirectoriesAndFiles paths).1) ∧
      (∀ p ∈ paths, endsSlash p = false →
        ∀ n, (∀ m, m ≤ n → ancestorActive (dirnameChain p m) = true) →
          dirnameChain p n ++ "/" ∈ (separateDirectoriesAndFiles paths).1) ∧
      (separateDirectoriesAndFiles paths).1.Pairwise
        (fun a b => slashCount a ≤ slashCount b) ∧
      (∀ p ∈ paths, endsSlash p = false →
        (∃ n, n ≤ p.length ∧ ancestorActive (dirnameChain p n) = false) ∧
        ∀ (extra : Nat) (acc : List String),
          addAncestors (p.length + 1 + extra) (posixDirname p) acc
            = addAncestors (p.length + 1) (posixDirname p) acc) := by
  intro paths hrel
  refine ⟨?files, fun p hp hs => ?dirs, ?anc, ?sorted, fun p hp hf => ?term⟩
  case files =>
    simp only [separateDirectoriesAndFiles]
    rw [foldl_classify_snd]
    simp
  case dirs =>
    simp only [separateDirectoriesAndFiles]
    rw [List.mem_mergeSort]
    exact mem_dirs_of_endsSlash paths ([], []) p hp hs
  case sorted =>
    simp only [separateDirectoriesAndFiles]
    exact sorted_dirs _
  case anc =>
    intro p hp hf n hact
    obtain ⟨n0, hn0, hina⟩ :=
      chain_terminates p.length p (Nat.le_refl _) (hrel p hp hf)
    have hnlt : n < p.length + 1 := by
      by_contra hge
      have hc := hact n0 (by omega)
      rw [hina] at hc
      exact Bool.false_ne_true hc
    obtain ⟨s, t, rfl⟩ := List.append_of_mem hp
    simp only [separateDirectoriesAndFiles]
    rw [List.mem_mergeSort, List.foldl_append, List.foldl_cons]
    apply foldl_classify_fst_mono
    have hcs : classifyStep (s.foldl classifyStep ([], [])) p
        = (addAncestors (p.length + 1) (posixDirname p)
            (s.foldl classifyStep ([], [])).1,
           (s.foldl classifyStep ([], [])).2 ++ [p]) := by
      simp [classifyStep, hf]
    rw [hcs]
    exact addAncestors_adds n p (p.length + 1) _ hnlt hact
  case term =>
    constructor
    · exact chain_terminates p.length p (Nat.le_refl _) (hrel p hp hf)
    · intro extra acc
      by_cases hnil : p.data = []
      · rw [posixDirname_nil p hnil,
            addAncestors_inactive _ _ _ (by decide),
            addAncestors_inactive _ _ _ (by decide)]
      · rcases posixDirname_shorter p hnil (hrel p hp hf) with hdot | ⟨hlt, hrel2⟩
        · rw [hdot, addAncestors_inactive _ _ _ (by decide),
              addAncestors_inactive _ _ _ (by decide)]
        · exact addAncestors_fuel_stable p.length (posixDirname p) (by omega)
            hrel2 (p.length + 1 + extra) (p.length + 1) (by omega) (by omega) acc

/-- C6 amended witness: in `["a/", "b/x"]` the implied ancestor
`dirname("b/x") + "/" = "b/"` of the file `"b/x"` is in the directory
output. -/
theorem separateDirectoriesAndFiles_relative_spec_witness :
    dirnameChain "b/x" 0 ++ "/" ∈ (separateDirectoriesAndFiles ["a/", "b/x"]).1 :=
  (separateDirectoriesAndFiles_relative_spec ["a/", "b/x"] (by decide)).2.2.1
    "b/x" (by decide) (by decide) 0
    (fun m hm => by
      have hm0 : m = 0 := Nat.le_zero.mp hm
      subst hm0
      decide)

end DirCraft
